import Mathlib

/-!
Verification of the DLOB matching core (`src/dlob/DLOB.ts`) of the
drift-labs order-filler.

The TypeScript source is shallowly embedded: `BN` (arbitrary-precision
integers) becomes `Int`, JS `Set<string>` of order-id fingerprints becomes a
duplicate-free `List`, the JS `Map` of per-market node lists becomes an
association list, and the lazy generators of the k-way merge become explicit
lists of remaining elements.  Functions that can throw a `TypeError` on an
undefined map lookup return the untouched-so-far state together with an
`Option JsError` (JS mutates `this` in place before the throw propagates, so
mutations made before the throw persist; the embedding keeps them).

`NodeList.ts` and `DLOBNode.ts` are imported by `DLOB.ts` but absent from the
sources; the definitions that stand in for them are modelled from the spec
and marked as such in their doc comments.
-/

/-- Order type enum of the chain `Order` account (spec section 3). -/
inductive OrderType
  | limit
  | market
  | triggerMarket
  | triggerLimit
deriving DecidableEq, Repr

/-- Order status enum; `opened` models the on-chain variant named `open`
(`open` is a Lean keyword). -/
inductive OrderStatus
  | init
  | opened
  | filled
  | cancelled
deriving DecidableEq, Repr

/-- Position direction enum: `long` routes to bid lists, `short` to ask lists. -/
inductive PositionDirection
  | long
  | short
deriving DecidableEq, Repr

/-- Trigger condition enum for trigger orders. -/
inductive TriggerCondition
  | above
  | below
deriving DecidableEq, Repr

/-- Side of the book, as used for `crossingSide` in `findCrossingOrders`. -/
inductive Side
  | ask
  | bid
deriving DecidableEq, Repr

/-- The `Order` record consumed read-only by the core (spec section 3).  All
`BN` fields become `Int`; `marketIndex` and `orderId` become `Nat`. -/
structure Order where
  marketIndex : Nat
  orderId : Nat
  orderType : OrderType
  status : OrderStatus
  direction : PositionDirection
  triggerCondition : TriggerCondition
  triggered : Bool
  price : Int
  oraclePriceOffset : Int
  triggerPrice : Int
  ts : Int
  postOnly : Bool
  auctionDuration : Int
  auctionStartPrice : Int
  auctionEndPrice : Int
deriving DecidableEq, Repr

/-- Modelled from the spec: `isAuctionComplete(order, slot)` from the external
`@drift-labs/sdk` is true iff `slot >= order.ts + order.auctionDuration`
(spec section 4.1). -/
def isAuctionComplete (o : Order) (slot : Int) : Bool :=
  decide (o.ts + o.auctionDuration ≤ slot)

/-- The sdk's `isVariant(object, type)` is `object.hasOwnProperty(type)`.
`DLOB.insert` calls `isVariant(order, 'init')`, passing the whole `Order`
record instead of `order.status` (every other call site in `DLOB.ts` passes
the enum field, e.g. `isVariant(order.status, 'open')`).  An `Order` record
has no property named `init`, so this test is `false` for every order. -/
def orderHasOwnPropInit (_ : Order) : Bool :=
  false

/-- Modelled from the spec: `getOrderId(order, userAccount)` from the missing
`NodeList.ts` is a deterministic fingerprint of `(userAccount, order.orderId)`,
unique globally (spec section 3).  User accounts are modelled as `Nat`. -/
def getOrderId (o : Order) (userAccount : Nat) : Nat × Nat :=
  (userAccount, o.orderId)

/-- Modelled from the spec: the market-order auction price from the missing
`DLOBNode.ts` (spec section 4.1).  While the auction is ongoing the price
interpolates linearly from `auctionStartPrice` to `auctionEndPrice` over
`auctionDuration` slots, clamped to the endpoints; once complete it is
`auctionEndPrice`. -/
def getAuctionPrice (o : Order) (slot : Int) : Int :=
  if o.ts + o.auctionDuration ≤ slot then
    o.auctionEndPrice
  else
    let lo := min o.auctionStartPrice o.auctionEndPrice
    let hi := max o.auctionStartPrice o.auctionEndPrice
    let raw :=
      o.auctionStartPrice +
        (o.auctionEndPrice - o.auctionStartPrice) * (slot - o.ts) / o.auctionDuration
    max lo (min raw hi)

/-- Modelled from the spec: the `DLOBNode` variants of the missing
`DLOBNode.ts` that participate in matching (spec section 3).  Trigger nodes
live in their own lists and are modelled separately as `TriggerOrderNode`. -/
inductive DLOBNode
  | limit (order : Order) (userAccount : Nat)
  | floatingLimit (order : Order) (userAccount : Nat)
  | market (order : Order) (userAccount : Nat)
  | vamm (price : Int)
deriving DecidableEq, Repr

/-- Modelled from the spec: `node.getPrice(oraclePriceData, slot)`
(spec section 4.1).  `oracle` is the oracle price carried by
`OraclePriceData`. -/
def DLOBNode.getPrice (n : DLOBNode) (oracle : Int) (slot : Int) : Int :=
  match n with
  | .limit o _ => o.price
  | .floatingLimit o _ => oracle + o.oraclePriceOffset
  | .market o _ => getAuctionPrice o slot
  | .vamm p => p

/-- The `isVammNode()` test of `DLOBNode`. -/
def DLOBNode.isVammNode (n : DLOBNode) : Bool :=
  match n with
  | .vamm _ => true
  | _ => false

/-- The `order` field of a `DLOBNode`; vAMM nodes carry no order. -/
def DLOBNode.orderOf (n : DLOBNode) : Option Order :=
  match n with
  | .limit o _ => some o
  | .floatingLimit o _ => some o
  | .market o _ => some o
  | .vamm _ => none

/-- The `userAccount` of a `DLOBNode`; vAMM nodes carry none. -/
def DLOBNode.userOf (n : DLOBNode) : Option Nat :=
  match n with
  | .limit _ u => some u
  | .floatingLimit _ u => some u
  | .market _ u => some u
  | .vamm _ => none

/-- A node of a `trigger.above` / `trigger.below` list (`TriggerOrderNode`
of the missing `DLOBNode.ts`). -/
structure TriggerOrderNode where
  order : Order
  userAccount : Nat
deriving DecidableEq, Repr

/-- `NodeToFill` of `DLOB.ts`: a taker node with an optional maker. -/
structure NodeToFill where
  node : DLOBNode
  makerNode : Option DLOBNode
deriving DecidableEq, Repr

/-- `CrossedNodesToFill` of `DLOB.ts`: the maker node must be present. -/
structure CrossedNodesToFill where
  node : DLOBNode
  makerNode : DLOBNode
deriving DecidableEq, Repr

/-- Conversion used by `findNodesToFill` when concatenating crossing fills
with market fills. -/
def CrossedNodesToFill.toNodeToFill (c : CrossedNodesToFill) : NodeToFill :=
  ⟨c.node, some c.makerNode⟩

/-- `NodeToTrigger` of `DLOB.ts`. -/
structure NodeToTrigger where
  node : TriggerOrderNode
deriving DecidableEq, Repr

/-- A JS runtime error: the `TypeError` thrown when a property of
`undefined` is accessed (`orderLists.get(marketIndex)` for an unknown
market). -/
inductive JsError
  | typeError
deriving DecidableEq, Repr

/-- The eight per-market node lists of `MarketNodeLists` in `DLOB.ts`.
Each `NodeList` is embedded as the list its generator would yield, best
first. -/
structure MarketNodeLists where
  limitAsk : List DLOBNode
  limitBid : List DLOBNode
  floatingLimitAsk : List DLOBNode
  floatingLimitBid : List DLOBNode
  marketAsk : List DLOBNode
  marketBid : List DLOBNode
  triggerAbove : List TriggerOrderNode
  triggerBelow : List TriggerOrderNode
deriving DecidableEq, Repr

/-- The eight empty lists created per market by the `DLOB` constructor. -/
def emptyMarketNodeLists : MarketNodeLists :=
  ⟨[], [], [], [], [], [], [], []⟩

/-- Which of the eight lists an order routes to: the `[type][subType]`
indexing of `getListForOrder`. -/
inductive ListKey
  | limitAsk
  | limitBid
  | floatingLimitAsk
  | floatingLimitBid
  | marketAsk
  | marketBid
  | triggerAbove
  | triggerBelow
deriving DecidableEq, Repr

/-- Modelled from the spec: `NodeList.insert` of the missing `NodeList.ts`
keeps the list sorted; `stays y = true` means the existing element `y`
remains in front of the inserted one (spec section 4.2: sort by the list's
key, earlier `ts` first within a key, stable for equal `ts`). -/
def insertSorted (stays : α → Bool) (x : α) : List α → List α
  | [] => [x]
  | y :: ys => if stays y then y :: insertSorted stays x ys else x :: y :: ys

/-- Sort key of a `DLOBNode` under a given order projection; vAMM nodes never
live inside a `NodeList`, so their key is irrelevant (0). -/
def nodeKey (f : Order → Int) (n : DLOBNode) : Int :=
  match n.orderOf with
  | some o => f o
  | none => 0

/-- Modelled from the spec: the placement test for a sorted `NodeList` of
`DLOBNode`s (spec section 4.2).  `asc` is the sort direction fixed at
construction; ties on the key keep the earlier `ts` first and are stable for
equal `ts`. -/
def nodeStays (asc : Bool) (f : Order → Int) (newNode y : DLOBNode) : Bool :=
  if nodeKey f y = nodeKey f newNode then nodeKey (fun o => o.ts) y ≤ nodeKey (fun o => o.ts) newNode
  else if asc then nodeKey f y < nodeKey f newNode
  else nodeKey f newNode < nodeKey f y

/-- Modelled from the spec: the placement test for a sorted trigger list,
keyed on `triggerPrice` (spec section 4.2). -/
def trigStays (asc : Bool) (newNode y : TriggerOrderNode) : Bool :=
  if y.order.triggerPrice = newNode.order.triggerPrice then y.order.ts ≤ newNode.order.ts
  else if asc then y.order.triggerPrice < newNode.order.triggerPrice
  else newNode.order.triggerPrice < y.order.triggerPrice

/-- Identity test used by `NodeList.remove` / `NodeList.update`: a node
matches when its `(userAccount, orderId)` fingerprint matches. -/
def nodeMatchesId (o : Order) (u : Nat) (n : DLOBNode) : Bool :=
  match n.orderOf, n.userOf with
  | some o2, some u2 => decide (u2 = u ∧ o2.orderId = o.orderId)
  | _, _ => false

/-- Modelled from the spec: `NodeList.update` replaces the order held by the
matching node without repositioning it (spec section 4.2). -/
def replaceNodeOrder (o : Order) (n : DLOBNode) : DLOBNode :=
  match n with
  | .limit _ u => .limit o u
  | .floatingLimit _ u => .floatingLimit o u
  | .market _ u => .market o u
  | .vamm p => .vamm p

/-- Insert of `Order` into the list selected by `ListKey`, building the node
variant that list holds (per the `DLOBNodeType` of the list). -/
def MarketNodeLists.insertInto (ls : MarketNodeLists) (k : ListKey) (o : Order) (u : Nat) :
    MarketNodeLists :=
  match k with
  | .limitAsk =>
      { ls with limitAsk :=
          insertSorted (nodeStays true (fun a => a.price) (DLOBNode.limit o u)) (DLOBNode.limit o u) ls.limitAsk }
  | .limitBid =>
      { ls with limitBid :=
          insertSorted (nodeStays false (fun a => a.price) (DLOBNode.limit o u)) (DLOBNode.limit o u) ls.limitBid }
  | .floatingLimitAsk =>
      { ls with floatingLimitAsk :=
          insertSorted (nodeStays true (fun a => a.oraclePriceOffset) (DLOBNode.floatingLimit o u)) (DLOBNode.floatingLimit o u) ls.floatingLimitAsk }
  | .floatingLimitBid =>
      { ls with floatingLimitBid :=
          insertSorted (nodeStays false (fun a => a.oraclePriceOffset) (DLOBNode.floatingLimit o u)) (DLOBNode.floatingLimit o u) ls.floatingLimitBid }
  | .marketAsk =>
      { ls with marketAsk :=
          insertSorted (nodeStays true (fun a => a.ts) (DLOBNode.market o u)) (DLOBNode.market o u) ls.marketAsk }
  | .marketBid =>
      { ls with marketBid :=
          insertSorted (nodeStays true (fun a => a.ts) (DLOBNode.market o u)) (DLOBNode.market o u) ls.marketBid }
  | .triggerAbove =>
      { ls with triggerAbove :=
          insertSorted (trigStays true ⟨o, u⟩) (⟨o, u⟩ : TriggerOrderNode) ls.triggerAbove }
  | .triggerBelow =>
      { ls with triggerBelow :=
          insertSorted (trigStays false ⟨o, u⟩) (⟨o, u⟩ : TriggerOrderNode) ls.triggerBelow }

/-- Modelled from the spec: `NodeList.remove` drops the node with the
matching `(userAccount, orderId)` fingerprint and silently no-ops when
absent (spec section 4.2). -/
def MarketNodeLists.removeFrom (ls : MarketNodeLists) (k : ListKey) (o : Order) (u : Nat) :
    MarketNodeLists :=
  match k with
  | .limitAsk => { ls with limitAsk := ls.limitAsk.filter (fun n => !nodeMatchesId o u n) }
  | .limitBid => { ls with limitBid := ls.limitBid.filter (fun n => !nodeMatchesId o u n) }
  | .floatingLimitAsk => { ls with floatingLimitAsk := ls.floatingLimitAsk.filter (fun n => !nodeMatchesId o u n) }
  | .floatingLimitBid => { ls with floatingLimitBid := ls.floatingLimitBid.filter (fun n => !nodeMatchesId o u n) }
  | .marketAsk => { ls with marketAsk := ls.marketAsk.filter (fun n => !nodeMatchesId o u n) }
  | .marketBid => { ls with marketBid := ls.marketBid.filter (fun n => !nodeMatchesId o u n) }
  | .triggerAbove => { ls with triggerAbove := ls.triggerAbove.filter (fun n => !(decide (n.userAccount = u ∧ n.order.orderId = o.orderId))) }
  | .triggerBelow => { ls with triggerBelow := ls.triggerBelow.filter (fun n => !(decide (n.userAccount = u ∧ n.order.orderId = o.orderId))) }

/-- Modelled from the spec: `NodeList.update` forwards to the matching node
without re-sorting (spec section 4.2). -/
def MarketNodeLists.updateIn (ls : MarketNodeLists) (k : ListKey) (o : Order) (u : Nat) :
    MarketNodeLists :=
  match k with
  | .limitAsk => { ls with limitAsk := ls.limitAsk.map (fun n => if nodeMatchesId o u n then replaceNodeOrder o n else n) }
  | .limitBid => { ls with limitBid := ls.limitBid.map (fun n => if nodeMatchesId o u n then replaceNodeOrder o n else n) }
  | .floatingLimitAsk => { ls with floatingLimitAsk := ls.floatingLimitAsk.map (fun n => if nodeMatchesId o u n then replaceNodeOrder o n else n) }
  | .floatingLimitBid => { ls with floatingLimitBid := ls.floatingLimitBid.map (fun n => if nodeMatchesId o u n then replaceNodeOrder o n else n) }
  | .marketAsk => { ls with marketAsk := ls.marketAsk.map (fun n => if nodeMatchesId o u n then replaceNodeOrder o n else n) }
  | .marketBid => { ls with marketBid := ls.marketBid.map (fun n => if nodeMatchesId o u n then replaceNodeOrder o n else n) }
  | .triggerAbove => { ls with triggerAbove := ls.triggerAbove.map (fun n => if decide (n.userAccount = u ∧ n.order.orderId = o.orderId) then ⟨o, n.userAccount⟩ else n) }
  | .triggerBelow => { ls with triggerBelow := ls.triggerBelow.map (fun n => if decide (n.userAccount = u ∧ n.order.orderId = o.orderId) then ⟨o, n.userAccount⟩ else n) }

/-- The DLOB state: the `openOrders` set (a JS `Set` of fingerprints, kept
insertion-ordered and duplicate-free) and the per-market lists (a JS `Map`
keyed by market index). -/
structure DLOB where
  openOrders : List (Nat × Nat)
  orderLists : List (Nat × MarketNodeLists)
deriving DecidableEq, Repr

/-- The `DLOB` constructor: one `MarketNodeLists` per market index, with the
sort directions of `DLOB.ts` lines 55-76 baked into the insert functions. -/
def mkDLOB (marketIndexes : List Nat) : DLOB :=
  ⟨[], marketIndexes.map (fun mi => (mi, emptyMarketNodeLists))⟩

/-- `orderLists.get(marketIndex)`: `none` models JS `undefined`. -/
def lookupMarket (st : DLOB) (mi : Nat) : Option MarketNodeLists :=
  (st.orderLists.find? (fun e => decide (e.1 = mi))).map (fun e => e.2)

/-- Store back the (mutated-in-place in JS) lists of one market. -/
def setMarket (st : DLOB) (mi : Nat) (ls : MarketNodeLists) : DLOB :=
  { st with orderLists := st.orderLists.map (fun e => if e.1 = mi then (mi, ls) else e) }

/-- JS `Set.add`: appends when absent, no-op when present. -/
def setAdd (l : List (Nat × Nat)) (x : Nat × Nat) : List (Nat × Nat) :=
  if x ∈ l then l else l ++ [x]

/-- JS `Set.delete`. -/
def setDelete (l : List (Nat × Nat)) (x : Nat × Nat) : List (Nat × Nat) :=
  l.filter (fun y => decide (y ≠ x))

/-- `getListForOrder` of `DLOB.ts` lines 136-160, collapsed to the list key
it selects.  `type` is `trigger` for inactive trigger orders, otherwise
`market` for (trigger)market orders, `floatingLimit` when
`order.oraclePriceOffset.gt(ZERO)`, else `limit`; `subType` is the trigger
condition for inactive trigger orders and the direction's side otherwise. -/
def getListKeyForOrder (o : Order) : ListKey :=
  let isInactiveTriggerOrder :=
    (o.orderType = OrderType.triggerMarket ∨ o.orderType = OrderType.triggerLimit) ∧ ¬o.triggered
  if isInactiveTriggerOrder then
    if o.triggerCondition = TriggerCondition.above then ListKey.triggerAbove else ListKey.triggerBelow
  else
    let bidSide := o.direction = PositionDirection.long
    if o.orderType = OrderType.market ∨ o.orderType = OrderType.triggerMarket then
      if bidSide then ListKey.marketBid else ListKey.marketAsk
    else if 0 < o.oraclePriceOffset then
      if bidSide then ListKey.floatingLimitBid else ListKey.floatingLimitAsk
    else
      if bidSide then ListKey.limitBid else ListKey.limitAsk

/-- `DLOB.insert` (lines 78-95).  The guard `isVariant(order, 'init')` never
fires (see `orderHasOwnPropInit`); `openOrders` is mutated before
`getListForOrder` dereferences the market entry, so for an unknown market
the add to `openOrders` persists while the insert throws. -/
def DLOB.insert (o : Order) (u : Nat) (st : DLOB) : DLOB × Option JsError :=
  if orderHasOwnPropInit o then (st, none)
  else
    let st1 :=
      if o.status = OrderStatus.opened then
        { st with openOrders := setAdd st.openOrders (getOrderId o u) }
      else st
    match lookupMarket st1 o.marketIndex with
    | none => (st1, some JsError.typeError)
    | some ls => (setMarket st1 o.marketIndex (ls.insertInto (getListKeyForOrder o) o u), none)

/-- `DLOB.remove` (lines 97-108): delete from `openOrders`, then remove from
the routed list; the delete persists when the market lookup throws. -/
def DLOB.remove (o : Order) (u : Nat) (st : DLOB) : DLOB × Option JsError :=
  let st1 := { st with openOrders := setDelete st.openOrders (getOrderId o u) }
  match lookupMarket st1 o.marketIndex with
  | none => (st1, some JsError.typeError)
  | some ls => (setMarket st1 o.marketIndex (ls.removeFrom (getListKeyForOrder o) o u), none)

/-- `DLOB.update` (lines 110-119). -/
def DLOB.update (o : Order) (u : Nat) (st : DLOB) : DLOB × Option JsError :=
  match lookupMarket st o.marketIndex with
  | none => (st, some JsError.typeError)
  | some ls => (setMarket st o.marketIndex (ls.updateIn (getListKeyForOrder o) o u), none)

/-- `DLOB.trigger` (lines 121-134): remove from the trigger list selected by
the order's `triggerCondition`, then insert into the list the (already
`triggered`) order now routes to.  An unknown market throws before any
mutation. -/
def DLOB.trigger (o : Order) (u : Nat) (st : DLOB) : DLOB × Option JsError :=
  match lookupMarket st o.marketIndex with
  | none => (st, some JsError.typeError)
  | some ls =>
    let ls1 :=
      if o.triggerCondition = TriggerCondition.above then
        { ls with triggerAbove := ls.triggerAbove.filter (fun n => !(decide (n.userAccount = u ∧ n.order.orderId = o.orderId))) }
      else
        { ls with triggerBelow := ls.triggerBelow.filter (fun n => !(decide (n.userAccount = u ∧ n.order.orderId = o.orderId))) }
    (setMarket st o.marketIndex (ls1.insertInto (getListKeyForOrder o) o u), none)

/-- One step of the `Array.prototype.reduce` callback in `getAsks`/`getBids`
(`DLOB.ts` lines 285-308 and 341-364): a pair is `(index, remaining
elements)`; a `done` current generator keeps the best, a `done` best is
replaced by the current, otherwise `keep best current = true` keeps the
best and `false` takes the current (so an equal price takes the current,
later, source). -/
def reduceStep (keep : α → α → Bool) (best cur : Nat × List α) : Nat × List α :=
  match cur.2, best.2 with
  | [], _ => best
  | _ :: _, [] => cur
  | c :: _, b :: _ => if keep b c then best else cur

/-- The fold of `reduceStep` over the remaining generators, mirroring
`reduce` without an initial value (the first generator seeds the
accumulator). -/
def reduceBestAux (keep : α → α → Bool) : Nat × List α → Nat → List (List α) → Nat × List α
  | best, _, [] => best
  | best, i, g :: rest => reduceBestAux keep (reduceStep keep best (i, g)) (i + 1) rest

/-- `generators.reduce(...)` of `getAsks`/`getBids`: `none` only when there
are no generators at all (never in the source, which always passes four). -/
def reduceBest (keep : α → α → Bool) : List (List α) → Option (Nat × List α)
  | [] => none
  | g :: rest => some (reduceBestAux keep (0, g) 1 rest)

/-- Total number of elements remaining across all generators; used as fuel
for the merge loop, which consumes one element per yield. -/
def streamsLen (gens : List (List α)) : Nat :=
  (gens.map List.length).sum

/-- The merge loop of `getAsks`/`getBids`: repeatedly pick the best
generator; if its head exists, yield it and advance that generator,
otherwise stop.  `fuel` bounds the number of yields; callers pass
`streamsLen gens`, which the loop can never exceed. -/
def mergeStreams (keep : α → α → Bool) : Nat → List (List α) → List α
  | 0, _ => []
  | Nat.succ fuel, gens =>
    match reduceBest keep gens with
    | none => []
    | some (_, []) => []
    | some (i, n :: rest) => n :: mergeStreams keep fuel (gens.set i rest)

/-- Modelled from the spec: `getVammNodeGenerator` of the missing
`NodeList.ts` yields a single synthetic vAMM node at the given price
(spec section 4.4). -/
def getVammNodeGenerator (price : Int) : List DLOBNode :=
  [DLOBNode.vamm price]

/-- The comparator of `getAsks`: keep the best generator iff its head price
is strictly less than the current one's. -/
def askKeep (oracle slot : Int) (b c : DLOBNode) : Bool :=
  decide (b.getPrice oracle slot < c.getPrice oracle slot)

/-- The comparator of `getBids`: keep the best generator iff its head price
is strictly greater than the current one's. -/
def bidKeep (oracle slot : Int) (b c : DLOBNode) : Bool :=
  decide (c.getPrice oracle slot < b.getPrice oracle slot)

/-- `getAsks` (lines 263-317) for one market's lists: the k-way merge over
the limit-ask, floating-limit-ask, market-ask and vAMM streams. -/
def getAsksList (ls : MarketNodeLists) (vAsk slot oracle : Int) : List DLOBNode :=
  let gens := [ls.limitAsk, ls.floatingLimitAsk, ls.marketAsk, getVammNodeGenerator vAsk]
  mergeStreams (askKeep oracle slot) (streamsLen gens) gens

/-- `getBids` (lines 319-373) for one market's lists. -/
def getBidsList (ls : MarketNodeLists) (vBid slot oracle : Int) : List DLOBNode :=
  let gens := [ls.limitBid, ls.floatingLimitBid, ls.marketBid, getVammNodeGenerator vBid]
  mergeStreams (bidKeep oracle slot) (streamsLen gens) gens

/-- `DLOB.getAsks`: `none` models the `TypeError` raised when the generator
body dereferences an unknown market on first `next()`. -/
def DLOB.getAsks (st : DLOB) (mi : Nat) (vAsk : Int) (slot oracle : Int) :
    Option (List DLOBNode) :=
  (lookupMarket st mi).map (fun ls => getAsksList ls vAsk slot oracle)

/-- `DLOB.getBids`. -/
def DLOB.getBids (st : DLOB) (mi : Nat) (vBid : Int) (slot oracle : Int) :
    Option (List DLOBNode) :=
  (lookupMarket st mi).map (fun ls => getBidsList ls vBid slot oracle)

/-- `DLOB.getBestAsk` (lines 455-464): price of the first merged ask. -/
def DLOB.getBestAsk (st : DLOB) (mi : Nat) (vAsk : Int) (slot oracle : Int) : Option Int :=
  (DLOB.getAsks st mi vAsk slot oracle).bind
    (fun l => l.head?.map (fun n => n.getPrice oracle slot))

/-- `DLOB.getBestBid` (lines 466-475). -/
def DLOB.getBestBid (st : DLOB) (mi : Nat) (vBid : Int) (slot oracle : Int) : Option Int :=
  (DLOB.getBids st mi vBid slot oracle).bind
    (fun l => l.head?.map (fun n => n.getPrice oracle slot))

/-- `findCrossingOrders` (lines 375-453).  The generator arguments of the
source are unused in the decision and omitted.  Returns the optional
crossing emission and the optional side to advance. -/
def findCrossingOrders (askNode bidNode : DLOBNode) (oracle slot : Int) :
    Option CrossedNodesToFill × Option Side :=
  let bidPrice := bidNode.getPrice oracle slot
  let askPrice := askNode.getPrice oracle slot
  if bidPrice < askPrice then (none, none)
  else if askNode.isVammNode then (none, some Side.bid)
  else if bidNode.isVammNode then (none, some Side.ask)
  else
    match bidNode.orderOf, askNode.orderOf with
    | some bidOrder, some askOrder =>
      if bidOrder.postOnly && askOrder.postOnly then
        (none, some (if bidOrder.ts < askOrder.ts then Side.bid else Side.ask))
      else if bidOrder.postOnly then
        (some ⟨askNode, bidNode⟩, some Side.ask)
      else if askOrder.postOnly then
        (some ⟨bidNode, askNode⟩, some Side.bid)
      else
        let newerNode := if bidOrder.ts < askOrder.ts then askNode else bidNode
        let olderNode := if askOrder.ts < bidOrder.ts then bidNode else askNode
        let crossingSide := if askOrder.ts < bidOrder.ts then Side.bid else Side.ask
        (some ⟨newerNode, olderNode⟩, some crossingSide)
    | _, _ =>
      -- unreachable: after both isVammNode tests fail, both nodes carry orders
      (none, none)

/-- The while loop of `findCrossingNodesToFill` (lines 202-226): push a
crossing emission, break once ten fills are accumulated, advance the side
named by `crossingSide`, and stop when a side is exhausted or no side is
named. -/
def findCrossingLoop (oracle slot : Int) :
    Nat → List DLOBNode → List DLOBNode → List CrossedNodesToFill → List CrossedNodesToFill
  | _, [], _, acc => acc
  | _, _ :: _, [], acc => acc
  | 0, _ :: _, _ :: _, acc => acc
  | Nat.succ fuel, a :: restAsks, b :: restBids, acc =>
    let r := findCrossingOrders a b oracle slot
    match r.1 with
    | some f =>
      let acc2 := acc ++ [f]
      if acc2.length = 10 then acc2
      else
        match r.2 with
        | some Side.bid => findCrossingLoop oracle slot fuel (a :: restAsks) restBids acc2
        | some Side.ask => findCrossingLoop oracle slot fuel restAsks (b :: restBids) acc2
        | none => acc2
    | none =>
      match r.2 with
      | some Side.bid => findCrossingLoop oracle slot fuel (a :: restAsks) restBids acc
      | some Side.ask => findCrossingLoop oracle slot fuel restAsks (b :: restBids) acc
      | none => acc

/-- `DLOB.findCrossingNodesToFill` (lines 186-228).  The loop's fuel is the
total number of stream elements: every iteration discards one element of one
stream, and the loop exits as soon as either stream is empty, so this budget
is never exhausted before the loop exits on its own. -/
def DLOB.findCrossingNodesToFill (st : DLOB) (mi : Nat) (vBid vAsk : Int) (slot oracle : Int) :
    Option (List CrossedNodesToFill) :=
  match lookupMarket st mi with
  | none => none
  | some ls =>
    let asks := getAsksList ls vAsk slot oracle
    let bids := getBidsList ls vBid slot oracle
    some (findCrossingLoop oracle slot (asks.length + bids.length) asks bids [])

/-- The per-list scan of `findMarketNodesToFill` (lines 233-247): emit
`{ node }` for every market node whose auction is complete. -/
def collectAuctionComplete (slot : Int) : List DLOBNode → List NodeToFill
  | [] => []
  | n :: rest =>
    (match n.orderOf with
     | some o => if isAuctionComplete o slot then [⟨n, none⟩] else []
     | none => []) ++ collectAuctionComplete slot rest

/-- `DLOB.findMarketNodesToFill` (lines 230-249): market bids first, then
market asks. -/
def DLOB.findMarketNodesToFill (st : DLOB) (mi : Nat) (slot : Int) :
    Option (List NodeToFill) :=
  match lookupMarket st mi with
  | none => none
  | some ls =>
    some (collectAuctionComplete slot ls.marketBid ++ collectAuctionComplete slot ls.marketAsk)

/-- `DLOB.findNodesToFill` (lines 166-184): crossing fills followed by market
fills. -/
def DLOB.findNodesToFill (st : DLOB) (mi : Nat) (vBid vAsk : Int) (slot oracle : Int) :
    Option (List NodeToFill) :=
  match DLOB.findCrossingNodesToFill st mi vBid vAsk slot oracle with
  | none => none
  | some crossing =>
    match DLOB.findMarketNodesToFill st mi slot with
    | none => none
    | some marketFills => some (crossing.map CrossedNodesToFill.toNodeToFill ++ marketFills)

/-- The `trigger.above` scan of `findNodesToTrigger` (lines 483-495): while
`oraclePrice > triggerPrice`, emit the node when its auction is complete
(skipping it otherwise), and break at the first node with
`oraclePrice <= triggerPrice`. -/
def scanTriggerAbove (oraclePrice slot : Int) : List TriggerOrderNode → List NodeToTrigger
  | [] => []
  | n :: rest =>
    if n.order.triggerPrice < oraclePrice then
      (if isAuctionComplete n.order slot then [⟨n⟩] else []) ++ scanTriggerAbove oraclePrice slot rest
    else []

/-- The `trigger.below` scan (lines 497-509), symmetric with
`oraclePrice < triggerPrice`. -/
def scanTriggerBelow (oraclePrice slot : Int) : List TriggerOrderNode → List NodeToTrigger
  | [] => []
  | n :: rest =>
    if oraclePrice < n.order.triggerPrice then
      (if isAuctionComplete n.order slot then [⟨n⟩] else []) ++ scanTriggerBelow oraclePrice slot rest
    else []

/-- `DLOB.findNodesToTrigger` (lines 477-512): the `above` scan's emissions
followed by the `below` scan's. -/
def DLOB.findNodesToTrigger (st : DLOB) (mi : Nat) (slot oraclePrice : Int) :
    Option (List NodeToTrigger) :=
  match lookupMarket st mi with
  | none => none
  | some ls =>
    some (scanTriggerAbove oraclePrice slot ls.triggerAbove ++
      scanTriggerBelow oraclePrice slot ls.triggerBelow)

/-- The reduce callback returns one of its two arguments verbatim. -/
theorem reduceStep_eq_or (keep : α → α → Bool) (best cur : Nat × List α) :
    reduceStep keep best cur = best ∨ reduceStep keep best cur = cur := by
  obtain ⟨i, cs⟩ := cur
  obtain ⟨j, bs⟩ := best
  cases cs with
  | nil => left; rfl
  | cons c cs =>
    cases bs with
    | nil => right; rfl
    | cons b bs =>
      simp only [reduceStep]
      split
      · left; rfl
      · right; rfl

/-- The fold of the reduce callback returns either the seed or one of the
remaining generators, paired with that generator's index. -/
theorem reduceBestAux_origin (keep : α → α → Bool) :
    ∀ (rest : List (List α)) (best : Nat × List α) (i : Nat),
      reduceBestAux keep best i rest = best ∨
        ∃ k g, rest.get? k = some g ∧ reduceBestAux keep best i rest = (i + k, g)
  | [], _, _ => Or.inl rfl
  | g :: rest, best, i => by
    rw [reduceBestAux]
    rcases reduceBestAux_origin keep rest (reduceStep keep best (i, g)) (i + 1) with h | ⟨k, g2, hk, hres⟩
    · rcases reduceStep_eq_or keep best (i, g) with hs | hs
      · left; rw [h, hs]
      · right; exact ⟨0, g, rfl, by rw [h, hs]; simp⟩
    · right
      refine ⟨k + 1, g2, by simpa using hk, ?_⟩
      rw [hres]
      congr 1
      omega

/-- The generator chosen by `reduce` is the entry of `gens` at the returned
index. -/
theorem reduceBest_get? (keep : α → α → Bool) (gens : List (List α)) (r : Nat × List α)
    (h : reduceBest keep gens = some r) : gens.get? r.1 = some r.2 := by
  cases gens with
  | nil => simp [reduceBest] at h
  | cons g rest =>
    simp only [reduceBest, Option.some.injEq] at h
    rcases reduceBestAux_origin keep rest (0, g) 1 with h2 | ⟨k, g2, hk, hres⟩
    · rw [← h, h2]; rfl
    · rw [← h, hres]
      simpa [Nat.add_comm] using hk

/-- One reduce step with the strict comparator `p · < p ·`: the head of the
winner bounds the heads of both arguments from below, and the winner is only
exhausted when both arguments are. -/
theorem reduceStep_min (p : α → Int) (best : Nat × List α) (i : Nat) (g : List α) :
    (∀ n s, (reduceStep (fun a b => decide (p a < p b)) best (i, g)).2 = n :: s →
      (∀ m t, best.2 = m :: t → p n ≤ p m) ∧ (∀ m t, g = m :: t → p n ≤ p m)) ∧
    ((reduceStep (fun a b => decide (p a < p b)) best (i, g)).2 = [] → best.2 = [] ∧ g = []) := by
  obtain ⟨j, bs⟩ := best
  cases g with
  | nil =>
    refine ⟨fun n s h => ⟨fun m t hm => ?_, fun m t hm => by simp at hm⟩, fun h => ⟨h, rfl⟩⟩
    simp only [reduceStep] at h
    have hm2 : bs = m :: t := hm
    rw [hm2] at h
    cases h
    exact le_refl _
  | cons c cs =>
    cases bs with
    | nil =>
      refine ⟨fun n s h => ⟨fun m t hm => by simp at hm, fun m t hm => ?_⟩, fun h => by simp [reduceStep] at h⟩
      simp only [reduceStep] at h
      rw [hm] at h
      cases h
      exact le_refl _
    | cons b bs =>
      simp only [reduceStep]
      split
      · next hlt =>
        refine ⟨fun n s h => ?_, fun h => by simp at h⟩
        cases h
        exact ⟨fun m t hm => by cases hm; exact le_refl _,
          fun m t hm => by cases hm; exact le_of_lt (of_decide_eq_true hlt)⟩
      · next hge =>
        refine ⟨fun n s h => ?_, fun h => by simp at h⟩
        cases h
        refine ⟨fun m t hm => ?_, fun m t hm => by cases hm; exact le_refl _⟩
        cases hm
        exact le_of_not_lt (of_decide_eq_false (Bool.of_not_eq_true hge))

/-- The fold of the reduce callback with the strict comparator: the head of
the final winner bounds the head of the seed and the heads of all remaining
generators; the winner is exhausted only when all of them are. -/
theorem reduceBestAux_min (p : α → Int) :
    ∀ (rest : List (List α)) (best : Nat × List α) (i : Nat),
      (∀ n s, (reduceBestAux (fun a b => decide (p a < p b)) best i rest).2 = n :: s →
        (∀ m t, best.2 = m :: t → p n ≤ p m) ∧
        (∀ g ∈ rest, ∀ m t, g = m :: t → p n ≤ p m)) ∧
      ((reduceBestAux (fun a b => decide (p a < p b)) best i rest).2 = [] →
        best.2 = [] ∧ ∀ g ∈ rest, g = [])
  | [], best, i => by
    refine ⟨fun n s h => ⟨fun m t hm => ?_, by simp⟩, fun h => ⟨h, by simp⟩⟩
    rw [reduceBestAux] at h
    rw [hm] at h
    cases h
    exact le_refl _
  | g :: rest, best, i => by
    have IH := reduceBestAux_min p rest (reduceStep (fun a b => decide (p a < p b)) best (i, g)) (i + 1)
    have ST := reduceStep_min p best i g
    rw [reduceBestAux]
    constructor
    · intro n s h
      have hbounds := IH.1 n s h
      refine ⟨fun m t hm => ?_, fun g2 hg2 m t hm => ?_⟩
      · rcases hstep : (reduceStep (fun a b => decide (p a < p b)) best (i, g)).2 with _ | ⟨m2, t2⟩
        · rcases ST.2 hstep with ⟨hb, _⟩
          rw [hm] at hb
          cases hb
        · exact le_trans (hbounds.1 m2 t2 hstep) ((ST.1 m2 t2 hstep).1 m t hm)
      · rcases List.mem_cons.mp hg2 with heq | hg3
        · rw [heq] at hm
          rcases hstep : (reduceStep (fun a b => decide (p a < p b)) best (i, g)).2 with _ | ⟨m2, t2⟩
          · rcases ST.2 hstep with ⟨_, hgE⟩
            rw [hm] at hgE
            cases hgE
          · exact le_trans (hbounds.1 m2 t2 hstep) ((ST.1 m2 t2 hstep).2 m t hm)
        · exact hbounds.2 g2 hg3 m t hm
    · intro h
      rcases IH.2 h with ⟨hstep, hrest⟩
      rcases ST.2 hstep with ⟨hb, hg⟩
      refine ⟨hb, fun g2 hg2 => ?_⟩
      rcases List.mem_cons.mp hg2 with rfl | hg3
      · exact hg
      · exact hrest g2 hg3

/-- With the strict comparator, the head yielded by `reduce` is a lower
bound for the head of every generator. -/
theorem reduceBest_min (p : α → Int) (gens : List (List α)) (j : Nat) (n : α) (s : List α)
    (h : reduceBest (fun a b => decide (p a < p b)) gens = some (j, n :: s)) :
    ∀ g ∈ gens, ∀ m t, g = m :: t → p n ≤ p m := by
  cases gens with
  | nil => simp [reduceBest] at h
  | cons g0 rest =>
    simp only [reduceBest, Option.some.injEq] at h
    have H := (reduceBestAux_min p rest (0, g0) 1).1 n s (by rw [h])
    intro g hg m t hgm
    rcases List.mem_cons.mp hg with rfl | hg2
    · exact H.1 m t hgm
    · exact H.2 g hg2 m t hgm

/-- Every element yielded by the merge loop belongs to one of the input
generators. -/
theorem mergeStreams_mem (keep : α → α → Bool) :
    ∀ (fuel : Nat) (gens : List (List α)) (x : α),
      x ∈ mergeStreams keep fuel gens → ∃ g, g ∈ gens ∧ x ∈ g
  | 0, gens, x => by simp [mergeStreams]
  | Nat.succ fuel, gens, x => by
    intro hx
    rw [mergeStreams] at hx
    rcases hr : reduceBest keep gens with _ | ⟨i, s⟩ <;> rw [hr] at hx
    · simp at hx
    · cases s with
      | nil => simp at hx
      | cons n rest =>
        simp only [List.mem_cons] at hx
        have hget := reduceBest_get? keep gens (i, n :: rest) hr
        have hmem : (n :: rest) ∈ gens := List.get?_mem hget
        rcases hx with heq | hx
        · exact ⟨n :: rest, hmem, List.mem_cons.mpr (Or.inl heq)⟩
        · obtain ⟨g, hg, hxg⟩ := mergeStreams_mem keep fuel (gens.set i rest) x hx
          rcases List.mem_or_eq_of_mem_set hg with hg2 | heq
          · exact ⟨g, hg2, hxg⟩
          · exact ⟨n :: rest, hmem, List.mem_cons_of_mem _ (heq ▸ hxg)⟩

/-- P3 for the merge loop: if every input generator yields non-decreasing
values of `p`, so does the merged output. -/
theorem mergeStreams_sorted (p : α → Int) :
    ∀ (fuel : Nat) (gens : List (List α)),
      (∀ g ∈ gens, g.Pairwise (fun a b => p a ≤ p b)) →
      (mergeStreams (fun a b => decide (p a < p b)) fuel gens).Pairwise (fun a b => p a ≤ p b)
  | 0, gens, _ => by simp [mergeStreams]
  | Nat.succ fuel, gens, hs => by
    rw [mergeStreams]
    rcases hr : reduceBest (fun a b => decide (p a < p b)) gens with _ | ⟨i, s⟩
    · simp
    · cases s with
      | nil => simp
      | cons n rest =>
        have hget := reduceBest_get? _ gens (i, n :: rest) hr
        have hmem : (n :: rest) ∈ gens := List.get?_mem hget
        have hrest_sorted : ∀ g ∈ gens.set i rest, g.Pairwise (fun a b => p a ≤ p b) := by
          intro g hg
          rcases List.mem_or_eq_of_mem_set hg with hg2 | heq
          · exact hs g hg2
          · exact heq.symm ▸ (List.pairwise_cons.mp (hs _ hmem)).2
        refine List.pairwise_cons.mpr ⟨?_, mergeStreams_sorted p fuel _ hrest_sorted⟩
        intro x hx
        obtain ⟨g, hg, hxg⟩ := mergeStreams_mem _ fuel _ x hx
        rcases List.mem_or_eq_of_mem_set hg with hg2 | heq
        · cases g with
          | nil => simp at hxg
          | cons m t =>
            have h1 : p n ≤ p m := reduceBest_min p gens i n rest hr _ hg2 m t rfl
            rcases List.mem_cons.mp hxg with heq2 | hxt
            · exact heq2.symm ▸ h1
            · exact le_trans h1 (List.rel_of_pairwise_cons (hs _ hg2) hxt)
        · exact List.rel_of_pairwise_cons (hs _ hmem) (heq ▸ hxg)

/-- When the head of the current (later) generator already bounds the best
generator's head from below — equality included — the reduce step takes the
current generator: ties go to the later source. -/
theorem reduceStep_last (p : α → Int) (best : Nat × List α) (i : Nat) (v : α)
    (h : best.2 = [] ∨ ∃ m t, best.2 = m :: t ∧ p v ≤ p m) :
    reduceStep (fun a b => decide (p a < p b)) best (i, [v]) = (i, [v]) := by
  obtain ⟨j, bs⟩ := best
  rcases h with hE | ⟨m, t, hm, hle⟩
  · have hbs : bs = [] := hE
    subst hbs
    rfl
  · have hbs : bs = m :: t := hm
    subst hbs
    simp only [reduceStep]
    split
    · next hc => exact absurd (of_decide_eq_true hc) (not_lt.mpr hle)
    · rfl

/-- Over the four merged sources, reduce picks the final (vAMM) singleton
whenever its value bounds every other head from below, ties included. -/
theorem reduceBest_four_last (p : α → Int) (L F M : List α) (v : α)
    (hL : ∀ m t, L = m :: t → p v ≤ p m)
    (hF : ∀ m t, F = m :: t → p v ≤ p m)
    (hM : ∀ m t, M = m :: t → p v ≤ p m) :
    reduceBest (fun a b => decide (p a < p b)) [L, F, M, [v]] = some (3, [v]) := by
  have e : reduceBest (fun a b => decide (p a < p b)) [L, F, M, [v]] =
      some (reduceStep (fun a b => decide (p a < p b))
        (reduceStep (fun a b => decide (p a < p b))
          (reduceStep (fun a b => decide (p a < p b)) (0, L) (1, F)) (2, M)) (3, [v])) := by
    simp only [reduceBest, reduceBestAux]
  have hB1 := reduceStep_eq_or (fun a b => decide (p a < p b)) (0, L) (1, F)
  have hB2 := reduceStep_eq_or (fun a b => decide (p a < p b))
    (reduceStep (fun a b => decide (p a < p b)) (0, L) (1, F)) (2, M)
  have hcases : (reduceStep (fun a b => decide (p a < p b))
      (reduceStep (fun a b => decide (p a < p b)) (0, L) (1, F)) (2, M)).2 = L ∨
      (reduceStep (fun a b => decide (p a < p b))
        (reduceStep (fun a b => decide (p a < p b)) (0, L) (1, F)) (2, M)).2 = F ∨
      (reduceStep (fun a b => decide (p a < p b))
        (reduceStep (fun a b => decide (p a < p b)) (0, L) (1, F)) (2, M)).2 = M := by
    rcases hB2 with h2 | h2
    · rcases hB1 with h1 | h1
      · left; rw [h2, h1]
      · right; left; rw [h2, h1]
    · right; right; rw [h2]
  have hbound : (reduceStep (fun a b => decide (p a < p b))
      (reduceStep (fun a b => decide (p a < p b)) (0, L) (1, F)) (2, M)).2 = [] ∨
      ∃ m t, (reduceStep (fun a b => decide (p a < p b))
        (reduceStep (fun a b => decide (p a < p b)) (0, L) (1, F)) (2, M)).2 = m :: t ∧ p v ≤ p m := by
    rcases hcases with h | h | h
    · rw [h]
      cases hl : L with
      | nil => left; rfl
      | cons m t => right; exact ⟨m, t, rfl, hL m t hl⟩
    · rw [h]
      cases hl : F with
      | nil => left; rfl
      | cons m t => right; exact ⟨m, t, rfl, hF m t hl⟩
    · rw [h]
      cases hl : M with
      | nil => left; rfl
      | cons m t => right; exact ⟨m, t, rfl, hM m t hl⟩
  rw [e, reduceStep_last p _ 3 v hbound]

/-- The merge of the four sources yields the final (vAMM) node first whenever
its value ties or beats every other head. -/
theorem mergeStreams_four_head (p : α → Int) (L F M : List α) (v : α)
    (hL : ∀ m t, L = m :: t → p v ≤ p m)
    (hF : ∀ m t, F = m :: t → p v ≤ p m)
    (hM : ∀ m t, M = m :: t → p v ≤ p m) :
    ∃ tail, mergeStreams (fun a b => decide (p a < p b))
      (streamsLen [L, F, M, [v]]) [L, F, M, [v]] = v :: tail := by
  obtain ⟨f, hf⟩ : ∃ f, streamsLen [L, F, M, [v]] = f + 1 :=
    ⟨L.length + F.length + M.length, by simp [streamsLen]; omega⟩
  rw [hf, mergeStreams, reduceBest_four_last p L F M v hL hF hM]
  exact ⟨_, rfl⟩

/-- The ask comparator is the strict comparator of the live ask price. -/
theorem askKeep_eq (oracle slot : Int) :
    askKeep oracle slot =
      fun a b => decide ((fun n : DLOBNode => n.getPrice oracle slot) a <
        (fun n : DLOBNode => n.getPrice oracle slot) b) := rfl

/-- The bid comparator is the strict comparator of the negated live bid
price. -/
theorem bidKeep_eq_negAsk (oracle slot : Int) :
    bidKeep oracle slot =
      fun a b => decide ((fun n : DLOBNode => -(n.getPrice oracle slot)) a <
        (fun n : DLOBNode => -(n.getPrice oracle slot)) b) := by
  funext a b
  simp only [bidKeep]
  exact decide_eq_decide.mpr (by omega)

/-- Concrete ask-side limit order at price 100 (market 0, user 5 below). -/
def oC1 : Order :=
  ⟨0, 1, OrderType.limit, OrderStatus.opened, PositionDirection.short,
    TriggerCondition.above, false, 100, 0, 0, 1, false, 0, 0, 0⟩

/-- Book holding only `oC1`, built through `DLOB.insert`. -/
def stC1 : DLOB := (DLOB.insert oC1 5 (mkDLOB [0])).1

/-- C1 is false on the code: with a resting limit ask at price 100 and
`vAsk = 100` (equal prices), `getAsks` yields the vAMM node before the user
limit node — the later source wins the tie, not the earlier one. -/
theorem claimC1_counterexample :
    (DLOBNode.limit oC1 5).getPrice 50 0 = (DLOBNode.vamm 100).getPrice 50 0 ∧
    DLOB.getAsks stC1 0 100 0 50 = some [DLOBNode.vamm 100, DLOBNode.limit oC1 5] := by
  constructor
  · decide
  · decide

/-- C1 (amended): at equal best price the merge prefers the *later* source in
the order limit < floatingLimit < market < vAMM, because the reduce keeps the
best generator only on a strictly better price.  In particular, whenever the
vAMM quote ties or beats every user head, `getAsks`/`getBids` yield the vAMM
node first — a user order node is never yielded before a vAMM node of equal
price. -/
theorem claimC1_amended (st : DLOB) (mi : Nat) (vAsk vBid slot oracle : Int)
    (ls : MarketNodeLists) (h : lookupMarket st mi = some ls)
    (ha : ∀ n : DLOBNode, (ls.limitAsk.head? = some n ∨ ls.floatingLimitAsk.head? = some n ∨
      ls.marketAsk.head? = some n) → vAsk ≤ n.getPrice oracle slot)
    (hb : ∀ n : DLOBNode, (ls.limitBid.head? = some n ∨ ls.floatingLimitBid.head? = some n ∨
      ls.marketBid.head? = some n) → n.getPrice oracle slot ≤ vBid) :
    (∃ tail, DLOB.getAsks st mi vAsk slot oracle = some (DLOBNode.vamm vAsk :: tail)) ∧
    (∃ tail, DLOB.getBids st mi vBid slot oracle = some (DLOBNode.vamm vBid :: tail)) := by
  constructor
  · obtain ⟨tail, htail⟩ := mergeStreams_four_head (fun n : DLOBNode => n.getPrice oracle slot)
      ls.limitAsk ls.floatingLimitAsk ls.marketAsk (DLOBNode.vamm vAsk)
      (fun m t hm => ha m (Or.inl (by rw [hm]; rfl)))
      (fun m t hm => ha m (Or.inr (Or.inl (by rw [hm]; rfl))))
      (fun m t hm => ha m (Or.inr (Or.inr (by rw [hm]; rfl))))
    refine ⟨tail, ?_⟩
    simp only [DLOB.getAsks, h, Option.map_some']
    simp only [getAsksList, getVammNodeGenerator]
    exact congrArg some htail
  · obtain ⟨tail, htail⟩ := mergeStreams_four_head (fun n : DLOBNode => -(n.getPrice oracle slot))
      ls.limitBid ls.floatingLimitBid ls.marketBid (DLOBNode.vamm vBid)
      (fun m t hm => neg_le_neg (hb m (Or.inl (by rw [hm]; rfl))))
      (fun m t hm => neg_le_neg (hb m (Or.inr (Or.inl (by rw [hm]; rfl)))))
      (fun m t hm => neg_le_neg (hb m (Or.inr (Or.inr (by rw [hm]; rfl)))))
    refine ⟨tail, ?_⟩
    simp only [DLOB.getBids, h, Option.map_some']
    simp only [getBidsList, getVammNodeGenerator]
    rw [bidKeep_eq_negAsk]
    exact congrArg some htail

/-- C1 witness: on an empty one-market book with `vAsk = 7`, `vBid = 9`,
both merge streams start with the vAMM node. -/
theorem claimC1_witness :
    (∃ tail, DLOB.getAsks (mkDLOB [0]) 0 7 0 0 = some (DLOBNode.vamm 7 :: tail)) ∧
    (∃ tail, DLOB.getBids (mkDLOB [0]) 0 9 0 0 = some (DLOBNode.vamm 9 :: tail)) :=
  claimC1_amended (mkDLOB [0]) 0 7 9 0 0 emptyMarketNodeLists rfl
    (fun n hn => by simp [emptyMarketNodeLists] at hn)
    (fun n hn => by simp [emptyMarketNodeLists] at hn)

/-- Active limit bid with a negative oracle price offset. -/
def oC2 : Order :=
  ⟨0, 2, OrderType.limit, OrderStatus.opened, PositionDirection.long,
    TriggerCondition.above, false, 100, -5, 0, 1, false, 0, 0, 0⟩

/-- C2 is false on the code: `getListForOrder` tests
`order.oraclePriceOffset.gt(ZERO)`, so an active limit order with a nonzero
but negative offset routes to the fixed-price limit list of its side, not to
the floating-limit list. -/
theorem claimC2_counterexample :
    oC2.oraclePriceOffset ≠ 0 ∧ getListKeyForOrder oC2 = ListKey.limitBid := by
  constructor
  · decide
  · decide

/-- C2 (amended): an active (non-trigger-pending) order of limit type routes
to the floating-limit list of its side exactly when `oraclePriceOffset` is
*strictly positive*, and to the fixed-price limit list exactly when the
offset is zero or negative. -/
theorem claimC2_amended (o : Order)
    (hactive : o.orderType = OrderType.limit ∨
      (o.orderType = OrderType.triggerLimit ∧ o.triggered = true)) :
    (getListKeyForOrder o =
        (if o.direction = PositionDirection.long then ListKey.floatingLimitBid
          else ListKey.floatingLimitAsk) ↔ 0 < o.oraclePriceOffset) ∧
    (getListKeyForOrder o =
        (if o.direction = PositionDirection.long then ListKey.limitBid
          else ListKey.limitAsk) ↔ o.oraclePriceOffset ≤ 0) := by
  have hroute : getListKeyForOrder o =
      if 0 < o.oraclePriceOffset then
        (if o.direction = PositionDirection.long then ListKey.floatingLimitBid
          else ListKey.floatingLimitAsk)
      else (if o.direction = PositionDirection.long then ListKey.limitBid
        else ListKey.limitAsk) := by
    rcases hactive with h | ⟨h, ht⟩
    · simp [getListKeyForOrder, h]
    · simp [getListKeyForOrder, h, ht]
  rw [hroute]
  by_cases hoff : 0 < o.oraclePriceOffset
  · rw [if_pos hoff]
    refine ⟨⟨fun _ => hoff, fun _ => rfl⟩,
      ⟨fun he => ?_, fun hle => absurd hoff (not_lt.mpr hle)⟩⟩
    exfalso
    cases hdir : o.direction <;> rw [hdir] at he <;> simp at he
  · rw [if_neg hoff]
    refine ⟨⟨fun he => ?_, fun hlt => absurd hlt hoff⟩,
      ⟨fun _ => not_lt.mp hoff, fun _ => rfl⟩⟩
    exfalso
    cases hdir : o.direction <;> rw [hdir] at he <;> simp at he

/-- Active limit bid with a positive oracle price offset. -/
def oC2w : Order :=
  ⟨0, 5, OrderType.limit, OrderStatus.opened, PositionDirection.long,
    TriggerCondition.above, false, 100, 3, 0, 1, false, 0, 0, 0⟩

/-- C2 witness: the amended routing rule evaluated on a positive-offset limit
bid. -/
theorem claimC2_witness :
    (getListKeyForOrder oC2w =
        (if oC2w.direction = PositionDirection.long then ListKey.floatingLimitBid
          else ListKey.floatingLimitAsk) ↔ 0 < oC2w.oraclePriceOffset) ∧
    (getListKeyForOrder oC2w =
        (if oC2w.direction = PositionDirection.long then ListKey.limitBid
          else ListKey.limitAsk) ↔ oC2w.oraclePriceOffset ≤ 0) :=
  claimC2_amended oC2w (Or.inl rfl)

/-- Market ask whose auction is complete at end price 100, placed at ts 0. -/
def oC6a : Order :=
  ⟨0, 3, OrderType.market, OrderStatus.opened, PositionDirection.short,
    TriggerCondition.above, false, 0, 0, 0, 0, false, 0, 100, 100⟩

/-- Market ask whose auction is complete at end price 50, placed at ts 1. -/
def oC6b : Order :=
  ⟨0, 4, OrderType.market, OrderStatus.opened, PositionDirection.short,
    TriggerCondition.above, false, 0, 0, 0, 1, false, 0, 50, 50⟩

/-- Book holding the two market asks above, built through `DLOB.insert`. -/
def stC6 : DLOB := (DLOB.insert oC6b 2 (DLOB.insert oC6a 1 (mkDLOB [0])).1).1

/-- C6 is false on the code: market lists are sorted by `ts`, not by price,
so two completed market asks at auction end prices 100 then 50 make `getAsks`
yield prices 100, 50, 200 — not non-decreasing. -/
theorem claimC6_counterexample :
    (DLOB.getAsks stC6 0 200 9 0).map (fun l => l.map (fun n => n.getPrice 0 9)) =
      some [100, 50, 200] ∧
    ¬ List.Pairwise (fun a b : Int => a ≤ b) [(100 : Int), 50, 200] := by
  constructor
  · decide
  · decide

/-- C6 (amended): the merged ask stream is non-decreasing and the merged bid
stream non-increasing in live price *provided each source stream is itself
price-monotone at the evaluated `(oracle, slot)`*.  Limit lists (keyed on
price), floating-limit lists (keyed on offset, price = oracle + offset) and
the vAMM singleton always satisfy this; market lists are keyed on `ts` and
can violate it, which is exactly what the counterexample exploits. -/
theorem claimC6_amended (st : DLOB) (mi : Nat) (vAsk vBid slot oracle : Int)
    (ls : MarketNodeLists) (h : lookupMarket st mi = some ls)
    (ha1 : ls.limitAsk.Pairwise (fun a b => a.getPrice oracle slot ≤ b.getPrice oracle slot))
    (ha2 : ls.floatingLimitAsk.Pairwise (fun a b => a.getPrice oracle slot ≤ b.getPrice oracle slot))
    (ha3 : ls.marketAsk.Pairwise (fun a b => a.getPrice oracle slot ≤ b.getPrice oracle slot))
    (hb1 : ls.limitBid.Pairwise (fun a b => b.getPrice oracle slot ≤ a.getPrice oracle slot))
    (hb2 : ls.floatingLimitBid.Pairwise (fun a b => b.getPrice oracle slot ≤ a.getPrice oracle slot))
    (hb3 : ls.marketBid.Pairwise (fun a b => b.getPrice oracle slot ≤ a.getPrice oracle slot)) :
    (∀ l, DLOB.getAsks st mi vAsk slot oracle = some l →
      l.Pairwise (fun a b => a.getPrice oracle slot ≤ b.getPrice oracle slot)) ∧
    (∀ l, DLOB.getBids st mi vBid slot oracle = some l →
      l.Pairwise (fun a b => b.getPrice oracle slot ≤ a.getPrice oracle slot)) := by
  constructor
  · intro l hl
    simp only [DLOB.getAsks, h, Option.map_some', Option.some.injEq] at hl
    rw [← hl]
    simp only [getAsksList]
    rw [askKeep_eq]
    apply mergeStreams_sorted (fun n : DLOBNode => n.getPrice oracle slot)
    intro g hg
    simp only [getVammNodeGenerator, List.mem_cons, List.not_mem_nil, or_false] at hg
    rcases hg with h1 | h2 | h3 | h4
    · exact h1 ▸ ha1
    · exact h2 ▸ ha2
    · exact h3 ▸ ha3
    · exact h4 ▸ (by simp)
  · intro l hl
    simp only [DLOB.getBids, h, Option.map_some', Option.some.injEq] at hl
    rw [← hl]
    simp only [getBidsList]
    rw [bidKeep_eq_negAsk]
    have H := mergeStreams_sorted (fun n : DLOBNode => -(n.getPrice oracle slot))
      (streamsLen [ls.limitBid, ls.floatingLimitBid, ls.marketBid, getVammNodeGenerator vBid])
      [ls.limitBid, ls.floatingLimitBid, ls.marketBid, getVammNodeGenerator vBid] ?hsorted
    case hsorted =>
      intro g hg
      simp only [getVammNodeGenerator, List.mem_cons, List.not_mem_nil, or_false] at hg
      rcases hg with h1 | h2 | h3 | h4
      · exact h1 ▸ hb1.imp (fun hab => by simp only [neg_le_neg_iff]; exact hab)
      · exact h2 ▸ hb2.imp (fun hab => by simp only [neg_le_neg_iff]; exact hab)
      · exact h3 ▸ hb3.imp (fun hab => by simp only [neg_le_neg_iff]; exact hab)
      · exact h4 ▸ (by simp)
    exact H.imp (fun hab => by simp only [neg_le_neg_iff] at hab; exact hab)

/-- C6 witness: the amended monotonicity evaluated on an empty one-market
book, whose merged streams are the vAMM singletons. -/
theorem claimC6_witness :
    List.Pairwise (fun a b : DLOBNode => a.getPrice 0 0 ≤ b.getPrice 0 0) [DLOBNode.vamm 7] ∧
    List.Pairwise (fun a b : DLOBNode => b.getPrice 0 0 ≤ a.getPrice 0 0) [DLOBNode.vamm 9] := by
  have H := claimC6_amended (mkDLOB [0]) 0 7 9 0 0 emptyMarketNodeLists rfl
    (by simp [emptyMarketNodeLists]) (by simp [emptyMarketNodeLists])
    (by simp [emptyMarketNodeLists]) (by simp [emptyMarketNodeLists])
    (by simp [emptyMarketNodeLists]) (by simp [emptyMarketNodeLists])
  exact ⟨H.1 [DLOBNode.vamm 7] rfl, H.2 [DLOBNode.vamm 9] rfl⟩

/-- Limit bid whose status is `init`. -/
def oC3 : Order :=
  ⟨0, 6, OrderType.limit, OrderStatus.init, PositionDirection.long,
    TriggerCondition.above, false, 100, 0, 0, 1, false, 0, 0, 0⟩

/-- C3 names a code bug: `insert` of a `status == init` order is NOT a
silent no-op.  The guard is `isVariant(order, 'init')` — it tests the
`Order` record itself instead of `order.status` (contrast
`isVariant(order.status, 'open')` on the next source line), and an `Order`
has no `init` property, so the guard never fires and the init order is
inserted into its routed list.  The `openOrders` half of the claim does hold
on this input: the id is added iff the status is `open`. -/
theorem claimC3_code_evaluation :
    (DLOB.insert oC3 7 (mkDLOB [0])).2 = none ∧
    (DLOB.insert oC3 7 (mkDLOB [0])).1.openOrders = [] ∧
    (lookupMarket (DLOB.insert oC3 7 (mkDLOB [0])).1 0).map (fun ls => ls.limitBid) =
      some [DLOBNode.limit oC3 7] := by
  refine ⟨?_, ?_, ?_⟩ <;> decide

/-- Post-only limit ask, ts 2 (the newer of the C4 pair). -/
def oC4ask : Order :=
  ⟨0, 8, OrderType.limit, OrderStatus.opened, PositionDirection.short,
    TriggerCondition.above, false, 100, 0, 0, 2, true, 0, 0, 0⟩

/-- Post-only limit bid, ts 1 (the older of the C4 pair). -/
def oC4bid : Order :=
  ⟨0, 9, OrderType.limit, OrderStatus.opened, PositionDirection.long,
    TriggerCondition.above, false, 105, 0, 0, 1, true, 0, 0, 0⟩

/-- C4 is false on the code: with two crossing post-only orders where the
bid (ts 1) is older than the ask (ts 2), `findCrossingOrders` returns
`crossingSide = bid`, advancing (skipping) the *older* bid and leaving the
newer ask at the head — the opposite of what the claim says. -/
theorem claimC4_counterexample :
    oC4bid.ts < oC4ask.ts ∧
    findCrossingOrders (DLOBNode.limit oC4ask 1) (DLOBNode.limit oC4bid 2) 0 0 =
      (none, some Side.bid) := by
  constructor <;> decide

/-- C4 (amended): for a crossing pair of post-only user orders no fill is
emitted and the advanced side is that of the *older* order — `bid` when
`bid.ts < ask.ts`, otherwise `ask` (so the ask is advanced on an exact tie) —
leaving the newer order at the head of its stream. -/
theorem claimC4_amended (askNode bidNode : DLOBNode) (oracle slot : Int)
    (ao bo : Order) (hao : askNode.orderOf = some ao) (hbo : bidNode.orderOf = some bo)
    (hcross : askNode.getPrice oracle slot ≤ bidNode.getPrice oracle slot)
    (hpa : ao.postOnly = true) (hpb : bo.postOnly = true) :
    findCrossingOrders askNode bidNode oracle slot =
      (none, some (if bo.ts < ao.ts then Side.bid else Side.ask)) := by
  have hvA : askNode.isVammNode = false := by
    cases askNode <;> simp_all [DLOBNode.orderOf, DLOBNode.isVammNode]
  have hvB : bidNode.isVammNode = false := by
    cases bidNode <;> simp_all [DLOBNode.orderOf, DLOBNode.isVammNode]
  simp only [findCrossingOrders]
  rw [if_neg (not_lt.mpr hcross), if_neg (by simp [hvA]), if_neg (by simp [hvB]), hbo, hao]
  simp [hpa, hpb]

/-- C4 witness: the amended both-post-only rule evaluated on the concrete
crossing pair (older bid is advanced). -/
theorem claimC4_witness :
    findCrossingOrders (DLOBNode.limit oC4ask 1) (DLOBNode.limit oC4bid 2) 0 0 =
      (none, some (if oC4bid.ts < oC4ask.ts then Side.bid else Side.ask)) :=
  claimC4_amended (DLOBNode.limit oC4ask 1) (DLOBNode.limit oC4bid 2) 0 0
    oC4ask oC4bid rfl rfl (by decide) rfl rfl

/-- Non-post-only limit ask, ts 1 (the older of the C5 pair). -/
def oC5ask : Order :=
  ⟨0, 10, OrderType.limit, OrderStatus.opened, PositionDirection.short,
    TriggerCondition.above, false, 100, 0, 0, 1, false, 0, 0, 0⟩

/-- Non-post-only limit bid, ts 2 (the newer of the C5 pair). -/
def oC5bid : Order :=
  ⟨0, 11, OrderType.limit, OrderStatus.opened, PositionDirection.long,
    TriggerCondition.above, false, 105, 0, 0, 2, false, 0, 0, 0⟩

/-- C5 names a code bug: for two crossing taker orders with the ask (ts 1)
older than the bid (ts 2), the source computes
`olderNode = askOrder.ts.lt(bidOrder.ts) ? bidNode : askNode`, which picks
the *bid* — the newer node — whenever the timestamps differ.  The emission
is `{ node: bid, makerNode: bid }`: the maker equals the taker (a
self-match), contradicting the code's own comment `// older order is maker`
and the claim.  (The `crossingSide` does equal the taker's side here.) -/
theorem claimC5_code_evaluation :
    oC5ask.ts < oC5bid.ts ∧
    findCrossingOrders (DLOBNode.limit oC5ask 1) (DLOBNode.limit oC5bid 2) 0 0 =
      (some ⟨DLOBNode.limit oC5bid 2, DLOBNode.limit oC5bid 2⟩, some Side.bid) := by
  constructor <;> decide

/-- On a list sorted ascending by trigger price, the above-scan — which
breaks at the first node with `oraclePrice <= triggerPrice` but keeps going
past incomplete auctions — emits exactly the completed-auction nodes whose
trigger price is strictly below the oracle price, in list order. -/
theorem scanTriggerAbove_eq_filter (oraclePrice slot : Int) :
    ∀ l : List TriggerOrderNode,
      l.Pairwise (fun a b => a.order.triggerPrice ≤ b.order.triggerPrice) →
      scanTriggerAbove oraclePrice slot l =
        (l.filter (fun n => decide (n.order.triggerPrice < oraclePrice) &&
          isAuctionComplete n.order slot)).map (fun n => ⟨n⟩)
  | [], _ => rfl
  | n :: rest, h => by
    rw [scanTriggerAbove]
    by_cases hc : n.order.triggerPrice < oraclePrice
    · rw [if_pos hc,
        scanTriggerAbove_eq_filter oraclePrice slot rest (List.pairwise_cons.mp h).2]
      cases ha : isAuctionComplete n.order slot
      · simp [List.filter_cons, hc, ha]
      · simp [List.filter_cons, hc, ha]
    · rw [if_neg hc]
      have hfil : (n :: rest).filter (fun m => decide (m.order.triggerPrice < oraclePrice) &&
          isAuctionComplete m.order slot) = [] := by
        rw [List.filter_eq_nil_iff]
        intro m hm
        simp only [Bool.and_eq_true, decide_eq_true_eq, not_and]
        intro hlt _
        rcases List.mem_cons.mp hm with heq | hm2
        · rw [heq] at hlt
          exact hc hlt
        · exact hc (lt_of_le_of_lt (List.rel_of_pairwise_cons h hm2) hlt)
      rw [hfil]
      rfl

/-- Symmetric scan of the below list, sorted descending by trigger price. -/
theorem scanTriggerBelow_eq_filter (oraclePrice slot : Int) :
    ∀ l : List TriggerOrderNode,
      l.Pairwise (fun a b => b.order.triggerPrice ≤ a.order.triggerPrice) →
      scanTriggerBelow oraclePrice slot l =
        (l.filter (fun n => decide (oraclePrice < n.order.triggerPrice) &&
          isAuctionComplete n.order slot)).map (fun n => ⟨n⟩)
  | [], _ => rfl
  | n :: rest, h => by
    rw [scanTriggerBelow]
    by_cases hc : oraclePrice < n.order.triggerPrice
    · rw [if_pos hc,
        scanTriggerBelow_eq_filter oraclePrice slot rest (List.pairwise_cons.mp h).2]
      cases ha : isAuctionComplete n.order slot
      · simp [List.filter_cons, hc, ha]
      · simp [List.filter_cons, hc, ha]
    · rw [if_neg hc]
      have hfil : (n :: rest).filter (fun m => decide (oraclePrice < m.order.triggerPrice) &&
          isAuctionComplete m.order slot) = [] := by
        rw [List.filter_eq_nil_iff]
        intro m hm
        simp only [Bool.and_eq_true, decide_eq_true_eq, not_and]
        intro hlt _
        rcases List.mem_cons.mp hm with heq | hm2
        · rw [heq] at hlt
          exact hc hlt
        · exact hc (lt_of_lt_of_le hlt (List.rel_of_pairwise_cons h hm2))
      rw [hfil]
      rfl

/-- C7: `findNodesToTrigger` emits exactly the auction-complete nodes of the
`above` list with `triggerPrice < oraclePrice` (in list order, halting at the
first node with `oraclePrice <= triggerPrice`, skipping — but not halting on —
incomplete auctions), followed by the symmetric emissions of the `below`
list with `oraclePrice < triggerPrice`; stated under the NodeList sort
invariants (`above` ascending, `below` descending by trigger price). -/
theorem claimC7_triggers (st : DLOB) (mi : Nat) (slot oraclePrice : Int)
    (ls : MarketNodeLists) (h : lookupMarket st mi = some ls)
    (habove : ls.triggerAbove.Pairwise (fun a b => a.order.triggerPrice ≤ b.order.triggerPrice))
    (hbelow : ls.triggerBelow.Pairwise (fun a b => b.order.triggerPrice ≤ a.order.triggerPrice)) :
    DLOB.findNodesToTrigger st mi slot oraclePrice =
      some ((ls.triggerAbove.filter (fun n => decide (n.order.triggerPrice < oraclePrice) &&
          isAuctionComplete n.order slot)).map (fun n => ⟨n⟩) ++
        (ls.triggerBelow.filter (fun n => decide (oraclePrice < n.order.triggerPrice) &&
          isAuctionComplete n.order slot)).map (fun n => ⟨n⟩)) := by
  simp only [DLOB.findNodesToTrigger, h]
  rw [scanTriggerAbove_eq_filter oraclePrice slot ls.triggerAbove habove,
    scanTriggerBelow_eq_filter oraclePrice slot ls.triggerBelow hbelow]

/-- Trigger order with trigger price `tp`, complete auction. -/
def trigOrder (oid : Nat) (tp : Int) : Order :=
  ⟨0, oid, OrderType.triggerMarket, OrderStatus.opened, PositionDirection.long,
    TriggerCondition.above, false, 0, 0, tp, 0, false, 0, 0, 0⟩

/-- Market lists whose above list holds triggers at 90, 95, 100. -/
def lsC7 : MarketNodeLists :=
  ⟨[], [], [], [], [], [],
    [⟨trigOrder 21 90, 1⟩, ⟨trigOrder 22 95, 1⟩, ⟨trigOrder 23 100, 1⟩], []⟩

/-- Book for the C7 witness. -/
def stC7 : DLOB := ⟨[], [(0, lsC7)]⟩

/-- C7 witness: spec scenario 6 — oracle 97 over triggers at 90, 95, 100
with complete auctions fires 90 and 95 in order and halts at 100. -/
theorem claimC7_witness :
    DLOB.findNodesToTrigger stC7 0 5 97 =
      some ((lsC7.triggerAbove.filter (fun n => decide (n.order.triggerPrice < 97) &&
          isAuctionComplete n.order 5)).map (fun n => ⟨n⟩) ++
        (lsC7.triggerBelow.filter (fun n => decide ((97:Int) < n.order.triggerPrice) &&
          isAuctionComplete n.order 5)).map (fun n => ⟨n⟩)) ∧
    DLOB.findNodesToTrigger stC7 0 5 97 =
      some [⟨⟨trigOrder 21 90, 1⟩⟩, ⟨⟨trigOrder 22 95, 1⟩⟩] :=
  ⟨claimC7_triggers stC7 0 5 97 lsC7 rfl (by decide) (by decide), by decide⟩

/-- The crossing loop never accumulates beyond ten fills: every push checks
the hard cap and breaks at ten, regardless of fuel or stream contents. -/
theorem findCrossingLoop_le (oracle slot : Int) :
    ∀ (fuel : Nat) (asks bids : List DLOBNode) (acc : List CrossedNodesToFill),
      acc.length < 10 → (findCrossingLoop oracle slot fuel asks bids acc).length ≤ 10 := by
  intro fuel
  induction fuel with
  | zero =>
    intro asks bids acc hacc
    cases asks with
    | nil => rw [findCrossingLoop]; omega
    | cons a restAsks =>
      cases bids with
      | nil => rw [findCrossingLoop]; omega
      | cons b restBids => rw [findCrossingLoop]; omega
  | succ fuel ih =>
    intro asks bids acc hacc
    cases asks with
    | nil => rw [findCrossingLoop]; omega
    | cons a restAsks =>
      cases bids with
      | nil => rw [findCrossingLoop]; omega
      | cons b restBids =>
        simp only [findCrossingLoop]
        rcases hr1 : (findCrossingOrders a b oracle slot).1 with _ | f
        · dsimp only
          rcases hr2 : (findCrossingOrders a b oracle slot).2 with _ | s
          · dsimp only
            omega
          · cases s
            · dsimp only
              exact ih restAsks (b :: restBids) acc hacc
            · dsimp only
              exact ih (a :: restAsks) restBids acc hacc
        · dsimp only
          by_cases h10 : (acc ++ [f]).length = 10
          · rw [if_pos h10, h10]
          · rw [if_neg h10]
            have hlen : (acc ++ [f]).length < 10 := by
              simp only [List.length_append, List.length_singleton] at h10 ⊢
              omega
            rcases hr2 : (findCrossingOrders a b oracle slot).2 with _ | s
            · dsimp only
              omega
            · cases s
              · dsimp only
                exact ih restAsks (b :: restBids) (acc ++ [f]) hlen
              · dsimp only
                exact ih (a :: restAsks) restBids (acc ++ [f]) hlen

/-- C9: `findCrossingNodesToFill` returns at most ten fills; the loop pushes
an emission, immediately checks `nodesToFill.length === 10`, and breaks the
scan at the tenth crossing. -/
theorem claimC9_cap (st : DLOB) (mi : Nat) (vBid vAsk slot oracle : Int)
    (res : List CrossedNodesToFill)
    (h : DLOB.findCrossingNodesToFill st mi vBid vAsk slot oracle = some res) :
    res.length ≤ 10 := by
  rw [DLOB.findCrossingNodesToFill] at h
  rcases hls : lookupMarket st mi with _ | ls <;> rw [hls] at h
  · cases h
  · simp only [Option.some.injEq] at h
    rw [← h]
    exact findCrossingLoop_le oracle slot _ _ _ [] (by simp)

/-- C9 witness: the cap applied to a one-market book whose only crossing
scan (vBid 5 against vAsk 7) emits nothing. -/
theorem claimC9_witness : ([] : List CrossedNodesToFill).length ≤ 10 :=
  claimC9_cap (mkDLOB [0]) 0 5 7 0 0 [] rfl

/-- The for-loop body over one market list equals the declarative filter of
auction-complete nodes, each emitted with no maker. -/
theorem collectAuctionComplete_eq_filter (slot : Int) :
    ∀ l : List DLOBNode,
      collectAuctionComplete slot l =
        (l.filter (fun n => ((n.orderOf).map (fun o => isAuctionComplete o slot)).getD false)).map
          (fun n => ⟨n, none⟩)
  | [] => rfl
  | n :: rest => by
    rw [collectAuctionComplete, collectAuctionComplete_eq_filter slot rest]
    rcases ho : n.orderOf with _ | o
    · simp [List.filter_cons, ho]
    · cases ha : isAuctionComplete o slot
      · simp [List.filter_cons, ho, ha]
      · simp [List.filter_cons, ho, ha]

/-- C10: `findMarketNodesToFill` returns exactly the auction-complete market
bids in bid-list order followed by the auction-complete market asks in
ask-list order, each as `{ node }` with no makerNode; incomplete nodes are
skipped without terminating either scan. -/
theorem claimC10_marketNodes (st : DLOB) (mi : Nat) (slot : Int)
    (ls : MarketNodeLists) (h : lookupMarket st mi = some ls) :
    DLOB.findMarketNodesToFill st mi slot =
      some ((ls.marketBid.filter
          (fun n => ((n.orderOf).map (fun o => isAuctionComplete o slot)).getD false)).map
          (fun n => ⟨n, none⟩) ++
        (ls.marketAsk.filter
          (fun n => ((n.orderOf).map (fun o => isAuctionComplete o slot)).getD false)).map
          (fun n => ⟨n, none⟩)) := by
  simp only [DLOB.findMarketNodesToFill, h]
  rw [collectAuctionComplete_eq_filter, collectAuctionComplete_eq_filter]

/-- Market bid whose auction is still running at slot 9 (ts 5, duration 10). -/
def oC10a : Order :=
  ⟨0, 31, OrderType.market, OrderStatus.opened, PositionDirection.long,
    TriggerCondition.above, false, 0, 0, 0, 5, false, 10, 60, 40⟩

/-- Market bid whose auction is complete at slot 9 (ts 0, duration 0). -/
def oC10b : Order :=
  ⟨0, 32, OrderType.market, OrderStatus.opened, PositionDirection.long,
    TriggerCondition.above, false, 0, 0, 0, 0, false, 0, 70, 70⟩

/-- Market lists with one running and one complete market bid. -/
def lsC10 : MarketNodeLists :=
  ⟨[], [], [], [], [], [DLOBNode.market oC10a 1, DLOBNode.market oC10b 2], [], []⟩

/-- Book for the C10 witness. -/
def stC10 : DLOB := ⟨[], [(0, lsC10)]⟩

/-- C10 witness: the incomplete bid is skipped without ending the scan and
only the complete one is emitted, with no maker. -/
theorem claimC10_witness :
    DLOB.findMarketNodesToFill stC10 0 9 =
      some ((lsC10.marketBid.filter
          (fun n => ((n.orderOf).map (fun o => isAuctionComplete o 9)).getD false)).map
          (fun n => ⟨n, none⟩) ++
        (lsC10.marketAsk.filter
          (fun n => ((n.orderOf).map (fun o => isAuctionComplete o 9)).getD false)).map
          (fun n => ⟨n, none⟩)) ∧
    DLOB.findMarketNodesToFill stC10 0 9 = some [⟨DLOBNode.market oC10b 2, none⟩] :=
  ⟨claimC10_marketNodes stC10 0 9 lsC10 rfl, by decide⟩

/-- Open-status limit bid naming market 7, absent from a `[0]`-market book. -/
def oC8 : Order :=
  ⟨7, 12, OrderType.limit, OrderStatus.opened, PositionDirection.long,
    TriggerCondition.above, false, 100, 0, 0, 1, false, 0, 0, 0⟩

/-- C8 is false on the code: on an unknown market `insert` does not leave the
state unchanged — the open order's id is added to `openOrders` before
`getListForOrder` dereferences the undefined map entry and the call fails
with a TypeError (no structured UnknownMarket error exists in the code). -/
theorem claimC8_counterexample :
    (DLOB.insert oC8 3 (mkDLOB [0])).2 = some JsError.typeError ∧
    (DLOB.insert oC8 3 (mkDLOB [0])).1.openOrders = [(3, 12)] ∧
    (mkDLOB [0]).openOrders = [] := by
  refine ⟨?_, ?_, ?_⟩ <;> decide

/-- C8 (amended): for a marketIndex not in the constructor list, every
mutator and reader fails via the JS TypeError from dereferencing the
`undefined` map entry — not a structured UnknownMarket error — and the
per-market order lists are left unchanged; but `openOrders` is NOT left
unchanged by `insert` (which adds the id when the status is open) or
`remove` (which deletes it) before the throw, while `update` and `trigger`
fail with the whole state untouched and every reader returns no value. -/
theorem claimC8_amended (st : DLOB) (o : Order) (u : Nat)
    (vBid vAsk slot oracle oraclePrice : Int)
    (h : lookupMarket st o.marketIndex = none) :
    ((DLOB.insert o u st).2 = some JsError.typeError ∧
      (DLOB.insert o u st).1.orderLists = st.orderLists ∧
      (DLOB.insert o u st).1.openOrders =
        (if o.status = OrderStatus.opened then setAdd st.openOrders (getOrderId o u)
          else st.openOrders)) ∧
    ((DLOB.remove o u st).2 = some JsError.typeError ∧
      (DLOB.remove o u st).1.orderLists = st.orderLists ∧
      (DLOB.remove o u st).1.openOrders = setDelete st.openOrders (getOrderId o u)) ∧
    DLOB.update o u st = (st, some JsError.typeError) ∧
    DLOB.trigger o u st = (st, some JsError.typeError) ∧
    DLOB.findNodesToTrigger st o.marketIndex slot oraclePrice = none ∧
    DLOB.getAsks st o.marketIndex vAsk slot oracle = none ∧
    DLOB.getBids st o.marketIndex vBid slot oracle = none ∧
    DLOB.getBestAsk st o.marketIndex vAsk slot oracle = none ∧
    DLOB.getBestBid st o.marketIndex vBid slot oracle = none ∧
    DLOB.findNodesToFill st o.marketIndex vBid vAsk slot oracle = none := by
  have hins : DLOB.insert o u st =
      ((if o.status = OrderStatus.opened then
          { st with openOrders := setAdd st.openOrders (getOrderId o u) } else st),
        some JsError.typeError) := by
    by_cases hst : o.status = OrderStatus.opened
    · simp only [DLOB.insert, orderHasOwnPropInit, Bool.false_eq_true, if_false, if_pos hst]
      rw [show lookupMarket { st with openOrders := setAdd st.openOrders (getOrderId o u) }
        o.marketIndex = none from h]
    · simp only [DLOB.insert, orderHasOwnPropInit, Bool.false_eq_true, if_false, if_neg hst]
      rw [h]
  have hrem : DLOB.remove o u st =
      ({ st with openOrders := setDelete st.openOrders (getOrderId o u) },
        some JsError.typeError) := by
    simp only [DLOB.remove]
    rw [show lookupMarket { st with openOrders := setDelete st.openOrders (getOrderId o u) }
      o.marketIndex = none from h]
  have hupd : DLOB.update o u st = (st, some JsError.typeError) := by
    simp only [DLOB.update]
    rw [h]
  have htrig : DLOB.trigger o u st = (st, some JsError.typeError) := by
    simp only [DLOB.trigger]
    rw [h]
  have hTrigScan : DLOB.findNodesToTrigger st o.marketIndex slot oraclePrice = none := by
    simp only [DLOB.findNodesToTrigger]
    rw [h]
  have hAsks : DLOB.getAsks st o.marketIndex vAsk slot oracle = none := by
    simp only [DLOB.getAsks]
    rw [h]
    rfl
  have hBids : DLOB.getBids st o.marketIndex vBid slot oracle = none := by
    simp only [DLOB.getBids]
    rw [h]
    rfl
  have hCross : DLOB.findCrossingNodesToFill st o.marketIndex vBid vAsk slot oracle = none := by
    simp only [DLOB.findCrossingNodesToFill]
    rw [h]
  have hFill : DLOB.findNodesToFill st o.marketIndex vBid vAsk slot oracle = none := by
    simp only [DLOB.findNodesToFill]
    rw [hCross]
  refine ⟨⟨by rw [hins], ?_, ?_⟩,
    ⟨by rw [hrem], by rw [hrem], by rw [hrem]⟩,
    hupd, htrig, hTrigScan, hAsks, hBids, ?_, ?_, hFill⟩
  · rw [hins]
    by_cases hst : o.status = OrderStatus.opened <;> simp [hst]
  · rw [hins]
    by_cases hst : o.status = OrderStatus.opened <;> simp [hst]
  · simp only [DLOB.getBestAsk]
    rw [hAsks]
    rfl
  · simp only [DLOB.getBestBid]
    rw [hBids]
    rfl

/-- C8 witness: the amended behaviour of `insert` on the unknown market 7 of
a `[0]`-market book. -/
theorem claimC8_witness :
    (DLOB.insert oC8 3 (mkDLOB [0])).2 = some JsError.typeError ∧
    (DLOB.insert oC8 3 (mkDLOB [0])).1.orderLists = (mkDLOB [0]).orderLists ∧
    (DLOB.insert oC8 3 (mkDLOB [0])).1.openOrders =
      (if oC8.status = OrderStatus.opened then
        setAdd (mkDLOB [0]).openOrders (getOrderId oC8 3)
        else (mkDLOB [0]).openOrders) :=
  (claimC8_amended (mkDLOB [0]) oC8 3 0 0 0 0 0 rfl).1
